import Mathlib

/-!
Verification development for the PrivacyPolicy_Crawler backend.

The definitions below are a shallow embedding of the caching and
fallback-decision core of the repository: URL normalization
(app/utils/url_normalizer.py), the document cache
(app/services/global_document_service.py), the analysis cache
(app/services/global_analysis_service.py), the provider-fallback
orchestration inside crawl_task (app/api/v1/crawler.py), the degraded
response parser shared by both provider services
(app/services/groq_service.py and app/services/gemini_service.py, whose
bodies coincide), and the link classifier (app/crawler/link_finder.py).

Python strings are modeled as List Char; timestamps as Int seconds;
the SQLAlchemy tables as Lean lists of records, with queries by first
match in list order.  The SHA-256 fingerprint is modeled as an abstract
hash parameter.  The modeled fragment of urllib.parse covers URLs made
of printable ASCII characters; str.lower is modeled for ASCII letters.
-/

/-! ## Basic character and list utilities -/

/-- ASCII lowercasing of a single character, modeling the effect of
Python str.lower() on ASCII input (identity on other characters). -/
def pyLower (c : Char) : Char :=
  if 65 ≤ c.toNat ∧ c.toNat ≤ 90 then Char.ofNat (c.toNat + 32) else c

/-- Lowercase a character list. -/
def lowerChars (l : List Char) : List Char := l.map pyLower

/-- Boolean substring test: does pat occur contiguously inside l?
Models the Python expression pat in s. -/
def listHasSub (pat : List Char) : List Char → Bool
  | [] => pat.isEmpty
  | c :: cs => pat.isPrefixOf (c :: cs) || listHasSub pat cs

/-- Substring test on strings (Python in operator). -/
def strHasSub (s pat : String) : Bool := listHasSub pat.toList s.toList

/-- Model of str.lower() on whole strings. -/
def strLower (s : String) : String := ⟨lowerChars s.toList⟩

/-! ## Provider-error classification and the fallback orchestrator

Model of the except-branch of the per-document analysis in crawl_task
(app/api/v1/crawler.py, lines 224-296).  The orchestrator lowercases
the string form of the primary (Groq) error and triages it by substring
tests, then applies the quota and configuration checks before deciding
whether the secondary (Gemini) provider is invoked. -/

inductive ErrClass where
  | rateLimited
  | unavailable
  | timedOut
  | other
deriving DecidableEq

/-- Error triage from crawl_task: checks 1-3 on the lowercased message.
Check 1 matches 429 / rate limit / quota, check 2 matches 503 /
service unavailable / unavailable, check 3 matches timeout / timed out;
everything else is classified other and is not eligible for fallback. -/
def classify_groq_error (msg : String) : ErrClass :=
  let m := strLower msg
  if strHasSub m "429" || strHasSub m "rate limit" || strHasSub m "quota" then
    ErrClass.rateLimited
  else if strHasSub m "503" || strHasSub m "service unavailable" || strHasSub m "unavailable" then
    ErrClass.unavailable
  else if strHasSub m "timeout" || strHasSub m "timed out" then
    ErrClass.timedOut
  else
    ErrClass.other

/-- Fixed daily ceiling MAX_GEMINI_USAGE_PER_DAY from crawl_task. -/
def MAX_GEMINI_USAGE_PER_DAY : Nat := 15

/-- The ten named numeric text-mining measurements.  JSON numbers are
modeled as rationals. -/
structure Measurements where
  word_count : ℚ
  sentence_count : ℚ
  average_words_per_sentence : ℚ
  flesch_reading_ease : ℚ
  flesch_kincaid_grade : ℚ
  automated_readability_index : ℚ
  sentiment_score : ℚ
  keyword_density : ℚ
  legal_clause_count : ℚ
  risk_indicator_score : ℚ
deriving DecidableEq

/-- Result dictionary produced by either provider service.  Both
parsers always populate these four keys, so they are plain fields. -/
structure AnalysisData where
  summary_100_words : String
  summary_one_sentence : String
  word_frequency : List (String × Nat)
  measurements : Measurements
deriving DecidableEq

/-- Behavior of the secondary (Gemini) path as seen by the orchestrator:
initialization of GeminiService may raise, the analyze call may raise,
or it returns a result dictionary. -/
inductive SecondaryOutcome where
  | initError
  | analyzeError (msg : String)
  | success (r : AnalysisData)
deriving DecidableEq

/-- One document analysis attempt of crawl_task, from the primary (Groq)
call through the fallback decision.  Arguments: the primary outcome (ok
result or raised error message), the secondary behavior, whether
settings.GEMINI_API_KEY is configured, and the current value of the
gemini_usage_today counter.  Returns either the analysis result together
with the analysis_model label and the updated counter, or the error that
the attempt raises. -/
def analyze_with_fallback (primary : Except String AnalysisData)
    (secondary : SecondaryOutcome) (gemini_configured : Bool)
    (gemini_usage_today : Nat) : Except String (AnalysisData × String × Nat) :=
  match primary with
  | Except.ok r => Except.ok (r, "groq", gemini_usage_today)
  | Except.error groq_error =>
    -- Checks 1-3: error triage.
    let should₁ : Bool := decide (classify_groq_error groq_error ≠ ErrClass.other)
    -- Check 4: daily limit not yet reached.
    let should₂ : Bool := should₁ && !(decide (MAX_GEMINI_USAGE_PER_DAY ≤ gemini_usage_today))
    -- Check 5: API key configured.
    let should₃ : Bool := should₂ && gemini_configured
    if should₃ then
      match secondary with
      | SecondaryOutcome.initError => Except.error groq_error
      | SecondaryOutcome.analyzeError _ => Except.error groq_error
      | SecondaryOutcome.success r =>
          Except.ok (r, "gemini", gemini_usage_today + 1)
    else
      Except.error groq_error

/-- One scheduled document of the analysis loop: the outcome the primary
provider would produce for it and the behavior of the secondary. -/
structure DocAttempt where
  primary : Except String AnalysisData
  secondary : SecondaryOutcome

/-- The analysis loop of one crawl_task invocation over its documents:
gemini_usage_today starts at 0 (it is a local variable of the task) and
per-document errors are swallowed so the loop continues.  Returns the
final counter value and the number of successfully analyzed documents. -/
def crawl_task_analysis_loop (gemini_configured : Bool)
    (docs : List DocAttempt) : Nat × Nat :=
  docs.foldl
    (fun acc d =>
      match analyze_with_fallback d.primary d.secondary gemini_configured acc.1 with
      | Except.ok (_, _, usage) => (usage, acc.2 + 1)
      | Except.error _ => acc)
    (0, 0)

/-- Final value of the task-local gemini_usage_today counter after one
crawl_task invocation. -/
def crawl_task_gemini_usage (gemini_configured : Bool)
    (docs : List DocAttempt) : Nat :=
  (crawl_task_analysis_loop gemini_configured docs).1

/-! ## URL normalization (app/utils/url_normalizer.py)

Model of normalize_crawl_url over List Char, together with the fragment
of urllib.parse.urlparse it exercises: for a URL carrying an http:// or
https:// prefix, urlparse takes the netloc to be the characters after
the double slash up to the first slash, question mark or hash; the path
runs from there to the first question mark or hash; a semicolon in the
last path segment starts the params component, which the code discards
because it rebuilds the URL from scheme, netloc and path only. -/

/-- Characters allowed to continue the netloc component. -/
def nlcChar (c : Char) : Bool := !(c == '/' || c == '?' || c == '#')

/-- Characters allowed to continue the path component. -/
def pathChar (c : Char) : Bool := !(c == '?' || c == '#')

/-- Step 1 of normalize_crawl_url: prepend https:// when the input does
not start with http:// or https:// (case-sensitive startswith). -/
def completeScheme (u : List Char) : List Char :=
  if "http://".toList.isPrefixOf u || "https://".toList.isPrefixOf u then u
  else "https://".toList ++ u

/-- Strip the scheme and double slash off a URL that starts with
http:// or https://. -/
def schemeRest (u : List Char) : List Char :=
  if "https://".toList.isPrefixOf u then u.drop 8 else u.drop 7

/-- Netloc component of the scheme-completed URL. -/
def netlocOf (u : List Char) : List Char :=
  (schemeRest (completeScheme u)).takeWhile nlcChar

/-- Remainder after the netloc component. -/
def afterNetlocOf (u : List Char) : List Char :=
  (schemeRest (completeScheme u)).dropWhile nlcChar

/-- Path component (params still attached, query and fragment cut). -/
def rawPathOf (u : List Char) : List Char :=
  (afterNetlocOf u).takeWhile pathChar

/-- Model of the params split of urlparse: when the path contains a
semicolon, everything from the first semicolon of the last path segment
on is the params component and is cut off. -/
def dropParams (p : List Char) : List Char :=
  if p.contains ';' then
    if p.contains '/' then
      let revp := p.reverse
      let lastSeg := (revp.takeWhile (fun c => !(c == '/'))).reverse
      let pre := (revp.dropWhile (fun c => !(c == '/'))).reverse
      pre ++ lastSeg.takeWhile (fun c => !(c == ';'))
    else p.takeWhile (fun c => !(c == ';'))
  else p

/-- Python path.rstrip applied with the slash character. -/
def rstripSlash (p : List Char) : List Char :=
  (p.reverse.dropWhile (fun c => c == '/')).reverse

/-- Remove one leading www. host alias. -/
def stripWww (n : List Char) : List Char :=
  if "www.".toList.isPrefixOf n then n.drop 4 else n

/-- Core of normalize_crawl_url on character lists: complete the scheme,
parse, force https, lowercase the netloc, strip one leading www.,
strip trailing slashes from the path, and rebuild from scheme, netloc
and path only. -/
def normalizeChars (u : List Char) : List Char :=
  let netloc := stripWww (lowerChars (netlocOf u))
  let path := rstripSlash (dropParams (rawPathOf u))
  "https://".toList ++ netloc ++ path

/-- Model of normalize_crawl_url: raises (none) on the empty string,
otherwise returns the normalized URL. -/
def normalize_crawl_url (url : String) : Option String :=
  if url = "" then none else some ⟨normalizeChars url.toList⟩

/-- Prefix of a URL up to its query string or fragment: two URLs agree
on this prefix exactly when they differ only in query and fragment. -/
def stripQueryFragment (u : List Char) : List Char :=
  u.takeWhile pathChar

/-! ## Base-URL extraction (GlobalDocumentService.normalize_base_url)

This helper reparses an arbitrary URL with urlparse and keeps scheme
and netloc; unlike normalize_crawl_url it does not lowercase and only
strips a www. alias behind an already lowercase scheme prefix. -/

/-- Characters urlparse accepts inside a scheme. -/
def isSchemeChar (c : Char) : Bool :=
  c.isAlpha || c.isDigit || c == '+' || c == '-' || c == '.'

/-- Head of a character list is an ASCII letter. -/
def headIsAlpha : List Char → Bool
  | [] => false
  | c :: _ => c.isAlpha

/-- Scheme split of urlparse on an arbitrary URL: when a colon is
present and the characters before it form a valid scheme, return the
lowercased scheme and the remainder, else no scheme. -/
def parseSchemeSplit (u : List Char) : List Char × List Char :=
  let pre := u.takeWhile (fun c => !(c == ':'))
  if pre.length < u.length && !pre.isEmpty && headIsAlpha pre && pre.all isSchemeChar then
    (lowerChars pre, u.drop (pre.length + 1))
  else ([], u)

/-- Netloc split of urlparse: a netloc exists only behind a double
slash and extends to the first slash, question mark or hash. -/
def splitNetlocRest (r : List Char) : List Char × List Char :=
  if "//".toList.isPrefixOf r then
    let t := r.drop 2
    (t.takeWhile nlcChar, t.dropWhile nlcChar)
  else ([], r)

/-- Model of GlobalDocumentService.normalize_base_url: rebuild
scheme://netloc and strip a leading www. behind the scheme (the
Python str.replace can only hit the prefix because a netloc contains
no slash). -/
def normalize_base_url (url : String) : String :=
  let sr := parseSchemeSplit url.toList
  let netloc := (splitNetlocRest sr.2).1
  let base := sr.1 ++ "://".toList ++ netloc
  if "https://www.".toList.isPrefixOf base then ⟨"https://".toList ++ base.drop 12⟩
  else if "http://www.".toList.isPrefixOf base then ⟨"http://".toList ++ base.drop 11⟩
  else ⟨base⟩

/-! ## Text statistics (Python str.split and re.findall)

The degraded parser computes word_count as len(original_text.split()),
sentence_count as len(re.findall of one or more sentence terminators),
and the average as round(word_count / max(sentence_count, 1), 2).
Both are counts of maximal runs: of non-whitespace characters for
split, of terminator characters for findall. -/

/-- Python str.isspace characters relevant to str.split (ASCII). -/
def pyIsSpace (c : Char) : Bool :=
  c == ' ' || c == '\t' || c == '\n' || c == '\r' || c == '\x0b' || c == '\x0c'

/-- Sentence terminators of the findall character class. -/
def isTerminator (c : Char) : Bool := c == '.' || c == '!' || c == '?'

/-- Maximal runs of characters satisfying keep, with an accumulator for
the run currently being read (in reverse). -/
def runsAux (keep : Char → Bool) : List Char → List Char → List (List Char)
  | [], acc => if acc.isEmpty then [] else [acc.reverse]
  | c :: cs, acc =>
    if keep c then runsAux keep cs (c :: acc)
    else if acc.isEmpty then runsAux keep cs []
    else acc.reverse :: runsAux keep cs []

/-- Model of text.split() without arguments: maximal runs of
non-whitespace characters, empties dropped. -/
def pySplitWhitespace (s : List Char) : List (List Char) :=
  runsAux (fun c => !pyIsSpace c) s []

/-- Model of re.findall for one-or-more sentence terminators: the
maximal runs of terminator characters. -/
def findallTerminatorRuns (s : List Char) : List (List Char) :=
  runsAux isTerminator s []

/-- Number of positions that start a maximal keep-run, carrying whether
the previous character was a keep character. -/
def runStartCountAux (keep : Char → Bool) (prevKeep : Bool) : List Char → Nat
  | [] => 0
  | c :: cs =>
    (if keep c && !prevKeep then 1 else 0) + runStartCountAux keep (keep c) cs

/-- Number of positions that start a maximal keep-run. -/
def runStartCount (keep : Char → Bool) (s : List Char) : Nat :=
  runStartCountAux keep false s

/-- Nearest integer with ties to even, the rounding of Python round. -/
def roundHalfEven (x : ℚ) : ℤ :=
  let n := ⌊x⌋
  let f := x - n
  if f < 1 / 2 then n
  else if 1 / 2 < f then n + 1
  else if Even n then n else n + 1

/-- Model of round(x, 2) on exact rationals. -/
def pyRound2 (x : ℚ) : ℚ := (roundHalfEven (x * 100) : ℚ) / 100

/-! ## Degraded response parsing (GroqService and GeminiService)

The method _regex_parse_response (groq_service.py lines 178-200,
gemini_service.py lines 160-182, identical bodies) produces the
best-effort result when the provider output is unparseable JSON.  The
two extraction regexes are literal words followed by optional colons
or whitespace, a quote, a bounded run of non-quote characters and a
closing quote; on such patterns Python regex search is deterministic:
the leftmost starting position wins, the gap and the body are maximal
runs, and the bounded repetition succeeds exactly when the maximal
non-quote run after the opening quote has length within the bounds and
is terminated by a quote character. -/

/-- Quote characters of the extraction character classes. -/
def isQuoteChar (c : Char) : Bool := c == '"' || c == '\''

/-- Characters matched by the gap between keyword and opening quote. -/
def colonOrSpace (c : Char) : Bool := c == ':' || pyIsSpace c

/-- Case-insensitive literal match at the head of a list; the pattern
is given lowercase. -/
def ciPrefix : List Char → List Char → Bool
  | [], _ => true
  | _ :: _, [] => false
  | p :: ps, c :: cs => p == pyLower c && ciPrefix ps cs

/-- Match a quoted body of lo to hi non-quote characters followed by a
closing quote, as the bounded greedy repetition behaves on this
pattern. -/
def matchQuotedBody (lo hi : Nat) (r : List Char) : Option (List Char) :=
  match r with
  | [] => none
  | q :: rest =>
    if isQuoteChar q then
      let body := rest.takeWhile (fun c => !isQuoteChar c)
      if lo ≤ body.length ∧ body.length ≤ hi ∧ rest.drop body.length ≠ [] then
        some body
      else none
    else none

/-- Attempt of the summary regex at one starting position. -/
def matchSummaryAt (l : List Char) : Option (List Char) :=
  if ciPrefix "summary".toList l then
    matchQuotedBody 100 500 ((l.drop 7).dropWhile colonOrSpace)
  else none

/-- Attempt of the one-sentence regex at one starting position: the
literal one, one arbitrary non-newline character, the literal
sentence, then the quoted body. -/
def matchOneSentenceAt (l : List Char) : Option (List Char) :=
  if ciPrefix "one".toList l then
    match l.drop 3 with
    | [] => none
    | c :: rest =>
      if c = '\n' then none
      else if ciPrefix "sentence".toList rest then
        matchQuotedBody 20 300 ((rest.drop 8).dropWhile colonOrSpace)
      else none
  else none

/-- Leftmost regex search: try the matcher at every position. -/
def reSearch (m : List Char → Option (List Char)) : List Char → Option (List Char)
  | [] => m []
  | c :: cs =>
    match m (c :: cs) with
    | some b => some b
    | none => reSearch m cs

/-- Model of _extract_summary with its fixed fallback string. -/
def _extract_summary (s : String) : String :=
  match reSearch matchSummaryAt s.toList with
  | some b => ⟨b⟩
  | none => "Summary extracted from analysis."

/-- Model of _extract_one_sentence with its fixed fallback string. -/
def _extract_one_sentence (s : String) : String :=
  match reSearch matchOneSentenceAt s.toList with
  | some b => ⟨b⟩
  | none => "Document analysis completed."

/-- Model of _regex_parse_response, shared by GroqService and
GeminiService: extract the two summaries from the raw response, leave
the word frequency empty, compute word_count, sentence_count and
average_words_per_sentence from the source document text, fill
risk_indicator_score with 50 and every other measurement with 0. -/
def _regex_parse_response (response_text original_text : String) : AnalysisData :=
  let word_count := (pySplitWhitespace original_text.toList).length
  let sentence_count := (findallTerminatorRuns original_text.toList).length
  { summary_100_words := _extract_summary response_text
    summary_one_sentence := _extract_one_sentence response_text
    word_frequency := []
    measurements := {
      word_count := word_count
      sentence_count := sentence_count
      average_words_per_sentence :=
        pyRound2 ((word_count : ℚ) / ((max sentence_count 1 : Nat) : ℚ))
      flesch_reading_ease := 0
      flesch_kincaid_grade := 0
      automated_readability_index := 0
      sentiment_score := 0
      keyword_density := 0
      legal_clause_count := 0
      risk_indicator_score := 50 } }

/-! ## Document cache (GlobalDocumentService)

The global_documents table is a list of records; queries resolve to
the first record in list order, updates rewrite that record in place.
The SHA-256 fingerprint calculate_text_hash is an abstract parameter
hashFn; collision resistance enters only as explicit hypotheses. -/

structure GlobalDocument where
  base_url : String
  document_url : String
  document_type : String
  title : Option String
  raw_text : String
  text_hash : String
  word_count : Nat
  last_crawled : Int
  crawl_status : String
  version : Nat
deriving DecidableEq

/-- Documents are fresh for 30 days. -/
def CACHE_VALIDITY_DAYS : Nat := 30

/-- Model of GlobalDocumentService.find_cached_documents: entries of
the normalized base URL that are fresh and crawled within the validity
window, optionally restricted to the requested document types. -/
def find_cached_documents (db : List GlobalDocument) (now : Int)
    (base_url : String) (document_types : Option (List String)) :
    List GlobalDocument :=
  let normalized_base := normalize_base_url base_url
  let cutoff : Int := now - CACHE_VALIDITY_DAYS * 86400
  let q := db.filter (fun d =>
    d.base_url == normalized_base
      && decide (cutoff ≤ d.last_crawled)
      && d.crawl_status == "fresh")
  match document_types with
  | some ts => q.filter (fun d => ts.contains d.document_type)
  | none => q

/-- Rewrite the first record satisfying p in place. -/
def updateFirst {α : Type} (p : α → Bool) (f : α → α) : List α → List α
  | [] => []
  | x :: xs => if p x then f x :: xs else x :: updateFirst p f xs

/-- Python x or y for an optional integer: 0 and None both fall back. -/
def pyOrNat (x : Option Nat) (fb : Nat) : Nat :=
  match x with
  | some n => if n = 0 then fb else n
  | none => fb

/-- Python title or existing.title: empty and None both fall back. -/
def pyOrTitle (x : Option String) (fb : Option String) : Option String :=
  match x with
  | some s => if s = "" then fb else some s
  | none => fb

/-- Model of GlobalDocumentService.store_document.  Returns the new
table state and the stored record.  An existing record for the URL is
overwritten in place: content change bumps the version and replaces
text, hash, title and word count; unchanged content only refreshes the
crawl timestamp; both force the status to fresh.  Without an existing
record a fresh one is inserted at version 1. -/
def store_document (hashFn : String → String) (db : List GlobalDocument)
    (now : Int) (document_url document_type raw_text base_url : String)
    (title : Option String) (word_count : Option Nat) :
    List GlobalDocument × GlobalDocument :=
  let normalized_base := normalize_base_url base_url
  let text_hash := hashFn raw_text
  match db.find? (fun d => d.document_url == document_url) with
  | some existing =>
    if existing.text_hash ≠ text_hash then
      let updated := { existing with
        raw_text := raw_text
        text_hash := text_hash
        title := pyOrTitle title existing.title
        word_count := pyOrNat word_count existing.word_count
        version := existing.version + 1
        last_crawled := now
        crawl_status := "fresh" }
      (updateFirst (fun d => d.document_url == document_url) (fun _ => updated) db,
        updated)
    else
      let updated := { existing with last_crawled := now, crawl_status := "fresh" }
      (updateFirst (fun d => d.document_url == document_url) (fun _ => updated) db,
        updated)
  | none =>
    let new_doc : GlobalDocument := {
      base_url := normalized_base
      document_url := document_url
      document_type := document_type
      title := title
      raw_text := raw_text
      text_hash := text_hash
      word_count := pyOrNat word_count (pySplitWhitespace raw_text.toList).length
      last_crawled := now
      crawl_status := "fresh"
      version := 1 }
    (db ++ [new_doc], new_doc)

/-! ## Analysis cache (GlobalAnalysisService) -/

structure GlobalAnalysisResult where
  global_document_id : Nat
  document_url : String
  text_hash : String
  summary_100_words : String
  summary_one_sentence : String
  word_frequency : List (String × Nat)
  measurements : Measurements
  analysis_model : String
  updated_at : Option Int
deriving DecidableEq

/-- Model of GlobalAnalysisService.store_analysis.  An existing record
for the URL is replaced in place when the hash differs or force_replace
is set, otherwise only its update timestamp is refreshed; without an
existing record a fresh one is inserted. -/
def store_analysis (db : List GlobalAnalysisResult) (now : Int)
    (global_document_id : Nat) (document_url text_hash : String)
    (analysis_data : AnalysisData) (analysis_model : String)
    (force_replace : Bool) :
    List GlobalAnalysisResult × GlobalAnalysisResult :=
  match db.find? (fun r => r.document_url == document_url) with
  | some existing =>
    if existing.text_hash ≠ text_hash ∨ force_replace = true then
      let updated := { existing with
        text_hash := text_hash
        global_document_id := global_document_id
        summary_100_words := analysis_data.summary_100_words
        summary_one_sentence := analysis_data.summary_one_sentence
        word_frequency := analysis_data.word_frequency
        measurements := analysis_data.measurements
        analysis_model := analysis_model
        updated_at := some now }
      (updateFirst (fun r => r.document_url == document_url) (fun _ => updated) db,
        updated)
    else
      let updated := { existing with updated_at := some now }
      (updateFirst (fun r => r.document_url == document_url) (fun _ => updated) db,
        updated)
  | none =>
    let new_analysis : GlobalAnalysisResult := {
      global_document_id := global_document_id
      document_url := document_url
      text_hash := text_hash
      summary_100_words := analysis_data.summary_100_words
      summary_one_sentence := analysis_data.summary_one_sentence
      word_frequency := analysis_data.word_frequency
      measurements := analysis_data.measurements
      analysis_model := analysis_model
      updated_at := none }
    (db ++ [new_analysis], new_analysis)

/-- Arguments of one store_analysis call, for reasoning about call
sequences. -/
structure AnalysisStoreCall where
  now : Int
  global_document_id : Nat
  document_url : String
  text_hash : String
  analysis_data : AnalysisData
  analysis_model : String
  force_replace : Bool

/-- Apply a sequence of store_analysis calls to a table state. -/
def apply_store_calls (db : List GlobalAnalysisResult)
    (calls : List AnalysisStoreCall) : List GlobalAnalysisResult :=
  calls.foldl
    (fun db c =>
      (store_analysis db c.now c.global_document_id c.document_url c.text_hash
        c.analysis_data c.analysis_model c.force_replace).1)
    db

/-- Number of analysis records stored for a document URL. -/
def urlCount (db : List GlobalAnalysisResult) (url : String) : Nat :=
  db.countP (fun r => r.document_url == url)

/-! ## Link classification (app/crawler/link_finder.py)

One extracted anchor with the fields _analyze_link reads; absent href
and title attributes are the empty string, as produced by dict.get.
A scored candidate is a triple of url, lowercased text and confidence
score, matching the tuples accumulated in found_links. -/

structure RawLink where
  url : String
  text : String
  href : String
  title : String

/-- Keyword table DOCUMENT_KEYWORDS in source order. -/
def DOCUMENT_KEYWORDS : List (String × List String) :=
  [("privacy",
    ["privacy policy", "privacy statement", "privacy notice",
     "data protection", "personal information", "data privacy",
     "our privacy", "how we use", "privacy and security policy"]),
   ("tos",
    ["terms of service", "terms and conditions", "terms of use",
     "terms & conditions", "user agreement", "terms agreement",
     "service agreement", "conditions of use", "service terms"]),
   ("terms_and_conditions",
    ["terms and conditions", "terms & conditions", "general terms"]),
   ("terms_of_use",
    ["terms of use", "usage terms", "acceptance terms"])]

/-- Pattern table URL_PATTERNS in source order; the patterns are
literal, so regex search is a substring test. -/
def URL_PATTERNS : List (String × String) :=
  [("/privacy", "privacy"), ("/privacy-policy", "privacy"),
   ("/privacy_policy", "privacy"),
   ("/terms", "tos"), ("/terms-of-service", "tos"),
   ("/terms_of_service", "tos"),
   ("/terms-and-conditions", "terms_and_conditions"),
   ("/terms_and_conditions", "terms_and_conditions"),
   ("/terms-of-use", "terms_of_use"), ("/terms_of_use", "terms_of_use"),
   ("/legal/privacy", "privacy"), ("/legal/terms", "tos"),
   ("/conditions", "terms_and_conditions")]

/-- First URL pattern occurring in the lowercased href wins. -/
def _check_url_patterns (href : String) : Option String :=
  (URL_PATTERNS.find? (fun pt => strHasSub href pt.1)).map (fun pt => pt.2)

/-- Python max with a key function keeps the first maximum. -/
def firstArgmaxGo (t : String) (s : Nat) : List (String × Nat) → String
  | [] => t
  | p :: rest => if s < p.2 then firstArgmaxGo p.1 p.2 rest else firstArgmaxGo t s rest

/-- Model of _check_keywords: per type, count the keywords occurring in
the text; among types with a positive count (in table order) the first
type of maximal count wins. -/
def _check_keywords (text : String) : Option String :=
  let scores := DOCUMENT_KEYWORDS.map
    (fun kw => (kw.1, (kw.2.filter (fun k => strHasSub text k)).length))
  let positive := scores.filter (fun p => 0 < p.2)
  match positive with
  | [] => none
  | p :: rest => some (firstArgmaxGo p.1 p.2 rest)

/-- Extension denylist of the first skip pattern. -/
def MEDIA_EXTENSIONS : List String :=
  [".jpg", ".jpeg", ".png", ".gif", ".svg", ".pdf", ".zip", ".exe", ".dmg"]

/-- Model of _is_valid_link: the parsed scheme must be http or https
and no skip pattern may hit (media extension at the end, fragment
anywhere, javascript, mailto or tel, all case-insensitive). -/
def _is_valid_link (url : String) : Bool :=
  let scheme := (parseSchemeSplit url.toList).1
  if !(scheme == "http".toList || scheme == "https".toList) then false
  else
    let lu := lowerChars url.toList
    if MEDIA_EXTENSIONS.any (fun e => e.toList.isSuffixOf lu) then false
    else if url.toList.contains '#' then false
    else if listHasSub "javascript:".toList lu then false
    else if listHasSub "mailto:".toList lu then false
    else if listHasSub "tel:".toList lu then false
    else true

/-- Model of _analyze_link: returns the document type together with the
accumulated tuple of url, lowercased link text and confidence score,
or none when the link is dropped.  URL pattern match scores 100, link
text keywords 80, title keywords 70. -/
def _analyze_link (link : RawLink) : Option (String × (String × String × Nat)) :=
  let url := link.url
  let text := strLower link.text
  let href := strLower link.href
  if !_is_valid_link url then none
  else
    match _check_url_patterns href with
    | some ty => some (ty, (url, text, 100))
    | none =>
      match _check_keywords text with
      | some ty => some (ty, (url, text, 80))
      | none =>
        let title := strLower link.title
        if title ≠ "" then
          match _check_keywords title with
          | some ty => some (ty, (url, text, 70))
          | none => none
        else none

/-- Candidates accumulated in found_links for one document type, in
discovery order. -/
def matchesFor (links : List RawLink) (doc_type : String) :
    List (String × String × Nat) :=
  links.filterMap (fun l =>
    match _analyze_link l with
    | some te => if te.1 == doc_type then some te.2 else none
    | none => none)

/-- Stable descending insertion by confidence score: an element is
placed before the first element whose score does not exceed its own,
so earlier elements keep priority on ties.  This is the order Python
sorted with reverse set produces, since both sorts are stable for the
same descending preorder. -/
def insertDesc (x : String × String × Nat) :
    List (String × String × Nat) → List (String × String × Nat)
  | [] => [x]
  | y :: ys => if y.2.2 ≤ x.2.2 then x :: y :: ys else y :: insertDesc x ys

/-- Stable sort by confidence score descending. -/
def sortByScoreDesc :
    List (String × String × Nat) → List (String × String × Nat)
  | [] => []
  | x :: xs => insertDesc x (sortByScoreDesc xs)

/-- Deduplication of find_links: walk the sorted candidates and keep
the first occurrence of every URL. -/
def dedupByUrl (seen : List String) :
    List (String × String × Nat) → List (String × String × Nat)
  | [] => []
  | e :: es =>
    if seen.contains e.1 then dedupByUrl seen es
    else e :: dedupByUrl (e.1 :: seen) es

/-- Candidate list find_links returns for one document type: sorted by
score descending, stable, duplicate URLs collapsed to the first
occurrence. -/
def find_links_for_type (links : List RawLink) (doc_type : String) :
    List (String × String × Nat) :=
  dedupByUrl [] (sortByScoreDesc (matchesFor links doc_type))

/-! ## Concrete sample data used by witnesses -/

/-- All-zero measurement record. -/
def sampleMeasurements : Measurements := ⟨0, 0, 0, 0, 0, 0, 0, 0, 0, 0⟩

/-- A concrete analysis result dictionary. -/
def sampleAnalysis : AnalysisData :=
  ⟨"short summary", "one sentence", [], sampleMeasurements⟩

/-- Twenty documents whose primary attempt fails rate-limited and whose
secondary succeeds: the document load of one heavy crawl session. -/
def rateLimitedDocs : List DocAttempt :=
  List.replicate 20 ⟨Except.error "429", SecondaryOutcome.success sampleAnalysis⟩

/-- A concrete fresh cache entry used by witnesses. -/
def sampleCachedDoc : GlobalDocument :=
  ⟨"https://example.com", "https://example.com/privacy", "privacy", none,
    "text", "hash", 2, 100, "fresh", 1⟩

/-! ## Theorems: provider fallback (claims C1, C2, C3) -/

/-- C1: when the primary provider fails with an error classified as
rate-limited, temporarily-unavailable or timed-out, the daily fallback
counter is below the fixed ceiling and the secondary credentials are
configured, the orchestrator invokes the secondary and, on secondary
success, labels the result analysis_model gemini (and increments the
counter). -/
theorem fallback_invokes_secondary_on_eligible_failure
    (groq_error : String) (r : AnalysisData) (usage : Nat)
    (hclass : classify_groq_error groq_error ≠ ErrClass.other)
    (hquota : usage < MAX_GEMINI_USAGE_PER_DAY) :
    analyze_with_fallback (Except.error groq_error)
        (SecondaryOutcome.success r) true usage
      = Except.ok (r, "gemini", usage + 1) := by
  simp [analyze_with_fallback, hclass, Nat.not_le.mpr hquota]

/-- Witness for C1: a concrete 429 failure at counter value 0. -/
theorem fallback_invokes_secondary_witness :
    classify_groq_error "Error code: 429 - rate limit reached" ≠ ErrClass.other
    ∧ 0 < MAX_GEMINI_USAGE_PER_DAY
    ∧ analyze_with_fallback
        (Except.error "Error code: 429 - rate limit reached")
        (SecondaryOutcome.success sampleAnalysis) true 0
      = Except.ok (sampleAnalysis, "gemini", 1) :=
  ⟨by decide, by decide,
    fallback_invokes_secondary_on_eligible_failure _ _ _ (by decide) (by decide)⟩

/-- C2: whenever the attempt does not end in a secondary success (the
primary error is classified other, or the ceiling is reached, or the
secondary is not configured, or initializing or invoking the secondary
fails), the orchestrator raises exactly the original primary error. -/
theorem fallback_failure_reraises_primary_error
    (groq_error : String) (secondary : SecondaryOutcome)
    (gemini_configured : Bool) (usage : Nat)
    (h : classify_groq_error groq_error = ErrClass.other
      ∨ MAX_GEMINI_USAGE_PER_DAY ≤ usage
      ∨ gemini_configured = false
      ∨ secondary = SecondaryOutcome.initError
      ∨ (∃ m, secondary = SecondaryOutcome.analyzeError m)) :
    analyze_with_fallback (Except.error groq_error) secondary
        gemini_configured usage
      = Except.error groq_error := by
  rcases h with h | h | h | h | ⟨m, h⟩
  · simp [analyze_with_fallback, h]
  · simp [analyze_with_fallback, h]
  · simp [analyze_with_fallback, h]
  · subst h
    simp [analyze_with_fallback]
  · subst h
    simp [analyze_with_fallback]

/-- Witness for C2: a concrete non-eligible primary error. -/
theorem fallback_reraise_witness :
    classify_groq_error "401 invalid api key" = ErrClass.other
    ∧ analyze_with_fallback (Except.error "401 invalid api key")
        (SecondaryOutcome.success sampleAnalysis) true 0
      = Except.error "401 invalid api key" :=
  ⟨by decide,
    fallback_failure_reraises_primary_error _ _ _ _ (Or.inl (by decide))⟩

set_option maxRecDepth 8192 in
/-- C3 (code behavior at the failing input): the gemini_usage_today
counter is a local variable of crawl_task, so every session restarts it
at 0.  One session of twenty eligible failures performs exactly the
ceiling of 15 secondary calls, and a second session in the same process
and day performs 15 more, for 30 secondary calls in one day, exceeding
the fixed daily ceiling the counter is meant to enforce. -/
theorem gemini_daily_counter_resets_per_session :
    crawl_task_gemini_usage true rateLimitedDocs = 15
    ∧ crawl_task_gemini_usage true rateLimitedDocs
        + crawl_task_gemini_usage true rateLimitedDocs = 30
    ∧ MAX_GEMINI_USAGE_PER_DAY < 30 := by
  refine ⟨?_, ?_, by decide⟩ <;> decide

/-! ## Theorems: degraded response parsing (claim C6) -/

/-- Length of the run decomposition counts the run-starting positions;
the accumulator holds a partially read run. -/
theorem runsAux_length (keep : Char → Bool) (s : List Char) (acc : List Char) :
    (runsAux keep s acc).length
      = runStartCountAux keep (!acc.isEmpty) s + (if acc.isEmpty then 0 else 1) := by
  induction s generalizing acc with
  | nil =>
    by_cases ha : acc.isEmpty <;> simp [runsAux, runStartCountAux, ha]
  | cons c cs ih =>
    by_cases hk : keep c <;> by_cases ha : acc.isEmpty <;>
      (simp [runsAux, runStartCountAux, hk, ha, ih]; try omega)

/-- Number of whitespace-separated tokens equals the number of
positions that start a maximal non-whitespace run. -/
theorem pySplitWhitespace_length (s : List Char) :
    (pySplitWhitespace s).length = runStartCount (fun c => !pyIsSpace c) s := by
  simp [pySplitWhitespace, runsAux_length, runStartCount]

/-- Number of findall matches equals the number of positions that start
a maximal terminator run. -/
theorem findallTerminatorRuns_length (s : List Char) :
    (findallTerminatorRuns s).length = runStartCount isTerminator s := by
  simp [findallTerminatorRuns, runsAux_length, runStartCount]

/-- C6 (amended): when the provider output stays unparseable, the
best-effort result carries the two regex-extracted summaries, an empty
word frequency, word_count equal to the number of whitespace-separated
tokens of the source text, sentence_count equal to the number of
sentence-terminator runs, their ratio rounded to two decimals as the
average, the fixed value 50 as risk_indicator_score, and zero in every
remaining measurement. -/
theorem regex_parse_response_spec (response_text original_text : String) :
    (_regex_parse_response response_text original_text).summary_100_words
        = _extract_summary response_text
    ∧ (_regex_parse_response response_text original_text).summary_one_sentence
        = _extract_one_sentence response_text
    ∧ (_regex_parse_response response_text original_text).word_frequency = []
    ∧ (_regex_parse_response response_text original_text).measurements.word_count
        = (runStartCount (fun c => !pyIsSpace c) original_text.toList : ℚ)
    ∧ (_regex_parse_response response_text original_text).measurements.sentence_count
        = (runStartCount isTerminator original_text.toList : ℚ)
    ∧ (_regex_parse_response response_text original_text).measurements.average_words_per_sentence
        = pyRound2 ((runStartCount (fun c => !pyIsSpace c) original_text.toList : ℚ)
            / ((max (runStartCount isTerminator original_text.toList) 1 : Nat) : ℚ))
    ∧ (_regex_parse_response response_text original_text).measurements.flesch_reading_ease = 0
    ∧ (_regex_parse_response response_text original_text).measurements.flesch_kincaid_grade = 0
    ∧ (_regex_parse_response response_text original_text).measurements.automated_readability_index = 0
    ∧ (_regex_parse_response response_text original_text).measurements.sentiment_score = 0
    ∧ (_regex_parse_response response_text original_text).measurements.keyword_density = 0
    ∧ (_regex_parse_response response_text original_text).measurements.legal_clause_count = 0
    ∧ (_regex_parse_response response_text original_text).measurements.risk_indicator_score = 50 := by
  refine ⟨rfl, rfl, rfl, ?_, ?_, ?_, rfl, rfl, rfl, rfl, rfl, rfl, rfl⟩
  all_goals
    simp [_regex_parse_response, pySplitWhitespace_length, findallTerminatorRuns_length]

/-- C6 counterexample: the claim zero-fills every measurement outside
the three text-derived ones, but the parser sets risk_indicator_score
to 50, not 0, at this concrete input. -/
theorem regex_parse_risk_indicator_not_zero :
    (_regex_parse_response "not json" "Hello world.").measurements.risk_indicator_score = 50
    ∧ (_regex_parse_response "not json" "Hello world.").measurements.risk_indicator_score ≠ 0 := by
  refine ⟨rfl, ?_⟩
  intro h
  rw [show (_regex_parse_response "not json" "Hello world.").measurements.risk_indicator_score
        = 50 from rfl] at h
  norm_num at h

/-! ## Theorems: document cache lookup (claim C9) -/

/-- C9: find_cached_documents returns exactly the entries of the
normalized base URL that are fresh and inside the 30-day validity
window, filtered to the requested types when given, and the empty list
(not an error) when nothing matches. -/
theorem find_cached_documents_spec (db : List GlobalDocument) (now : Int)
    (base_url : String) (types : Option (List String)) :
    (∀ d, d ∈ find_cached_documents db now base_url types ↔
       d ∈ db ∧ d.base_url = normalize_base_url base_url
         ∧ d.crawl_status = "fresh"
         ∧ now - (CACHE_VALIDITY_DAYS : Int) * 86400 ≤ d.last_crawled
         ∧ ∀ ts, types = some ts → d.document_type ∈ ts)
    ∧ ((∀ d ∈ db, ¬(d.base_url = normalize_base_url base_url
         ∧ d.crawl_status = "fresh"
         ∧ now - (CACHE_VALIDITY_DAYS : Int) * 86400 ≤ d.last_crawled
         ∧ ∀ ts, types = some ts → d.document_type ∈ ts)) →
       find_cached_documents db now base_url types = []) := by
  have hmem : ∀ d, d ∈ find_cached_documents db now base_url types ↔
      d ∈ db ∧ d.base_url = normalize_base_url base_url
        ∧ d.crawl_status = "fresh"
        ∧ now - (CACHE_VALIDITY_DAYS : Int) * 86400 ≤ d.last_crawled
        ∧ ∀ ts, types = some ts → d.document_type ∈ ts := by
    intro d
    cases types with
    | none =>
      simp [find_cached_documents, List.mem_filter, and_assoc]
      tauto
    | some ts =>
      simp [find_cached_documents, List.mem_filter, and_assoc]
      tauto
  refine ⟨hmem, fun h => List.eq_nil_iff_forall_not_mem.mpr (fun d hd => ?_)⟩
  have := (hmem d).mp hd
  exact h d this.1 this.2

/-- Witness for C9: a concrete fresh entry is returned for its base
URL with no type filter. -/
theorem find_cached_documents_witness :
    sampleCachedDoc ∈ find_cached_documents [sampleCachedDoc] 100 "https://example.com" none :=
  ((find_cached_documents_spec [sampleCachedDoc] 100 "https://example.com" none).1
      sampleCachedDoc).mpr
    ⟨by simp, by decide, rfl, by decide, by simp⟩

/-! ## Theorems: in-place table updates -/

/-- Rewriting the first match in place keeps the list length. -/
theorem updateFirst_length {α : Type} (q : α → Bool) (f : α → α) (l : List α) :
    (updateFirst q f l).length = l.length := by
  induction l with
  | nil => rfl
  | cons x xs ih =>
    by_cases hx : q x = true <;> simp [updateFirst, hx, ih]

/-- The first match found after an in-place rewrite is the rewritten
record, as long as the rewrite preserves the predicate. -/
theorem updateFirst_find {α : Type} (p : α → Bool) (f : α → α) (l : List α)
    (hp : ∀ a, p a = true → p (f a) = true) :
    (updateFirst p f l).find? p = (l.find? p).map f := by
  induction l with
  | nil => rfl
  | cons x xs ih =>
    by_cases hx : p x = true
    · simp [updateFirst, hx, List.find?_cons_of_pos, hp x hx]
    · simp [updateFirst, hx, List.find?_cons_of_neg, ih]

/-- An in-place rewrite that preserves a counting predicate on the
records it may touch preserves the count. -/
theorem updateFirst_countP {α : Type} (q : α → Bool) (f : α → α)
    (pcount : α → Bool) (l : List α)
    (hf : ∀ a, q a = true → pcount (f a) = pcount a) :
    (updateFirst q f l).countP pcount = l.countP pcount := by
  induction l with
  | nil => rfl
  | cons x xs ih =>
    by_cases hx : q x = true
    · simp [updateFirst, hx, List.countP_cons, hf x hx]
    · simp [updateFirst, hx, List.countP_cons, ih]

/-! ## Theorems: document cache store (claim C4) -/

/-- The record stored by store_document carries the stored URL. -/
theorem store_document_snd_document_url (hashFn : String → String)
    (db : List GlobalDocument) (now : Int)
    (url ty text base : String) (title : Option String) (wc : Option Nat) :
    (store_document hashFn db now url ty text base title wc).2.document_url = url := by
  cases hfind : db.find? (fun d => d.document_url == url) with
  | none => simp [store_document, hfind]
  | some e =>
    have he : e.document_url = url := by simpa using List.find?_some hfind
    by_cases hh : e.text_hash = hashFn text
    · simp [store_document, hfind, hh, he]
    · simp [store_document, hfind, hh, he]

/-- The record stored by store_document carries the fingerprint of the
stored text. -/
theorem store_document_snd_text_hash (hashFn : String → String)
    (db : List GlobalDocument) (now : Int)
    (url ty text base : String) (title : Option String) (wc : Option Nat) :
    (store_document hashFn db now url ty text base title wc).2.text_hash
      = hashFn text := by
  cases hfind : db.find? (fun d => d.document_url == url) with
  | none => simp [store_document, hfind]
  | some e =>
    by_cases hh : e.text_hash = hashFn text
    · simp [store_document, hfind, hh]
    · simp [store_document, hfind, hh]

/-- The record stored by store_document always has status fresh. -/
theorem store_document_snd_status (hashFn : String → String)
    (db : List GlobalDocument) (now : Int)
    (url ty text base : String) (title : Option String) (wc : Option Nat) :
    (store_document hashFn db now url ty text base title wc).2.crawl_status
      = "fresh" := by
  cases hfind : db.find? (fun d => d.document_url == url) with
  | none => simp [store_document, hfind]
  | some e =>
    by_cases hh : e.text_hash = hashFn text
    · simp [store_document, hfind, hh]
    · simp [store_document, hfind, hh]

/-- After any store_document call, the first record found for the URL
is the record the call returned. -/
theorem store_document_find (hashFn : String → String)
    (db : List GlobalDocument) (now : Int)
    (url ty text base : String) (title : Option String) (wc : Option Nat) :
    ((store_document hashFn db now url ty text base title wc).1).find?
        (fun d => d.document_url == url)
      = some (store_document hashFn db now url ty text base title wc).2 := by
  cases hfind : db.find? (fun d => d.document_url == url) with
  | none =>
    simp only [store_document, hfind]
    rw [List.find?_append, hfind]
    simp
  | some e =>
    have he : e.document_url = url := by simpa using List.find?_some hfind
    by_cases hh : e.text_hash = hashFn text
    · simp only [store_document, hfind, hh]
      rw [if_neg (by simp)]
      rw [updateFirst_find _ _ _ (fun a _ => by simp [he]), hfind]
      rfl
    · simp only [store_document, hfind]
      rw [if_pos hh]
      rw [updateFirst_find _ _ _ (fun a _ => by simp [he]), hfind]
      rfl

/-- C4: document-cache store correctness.  When no entry exists for the
URL, store creates exactly one entry at version 1 with status fresh.
Storing the same text again returns the same record with only the
crawl timestamp refreshed (status forced to fresh) and the version
unchanged.  Storing different text (different fingerprint) increments
the version by exactly one and updates the stored fingerprint. -/
theorem store_document_cache_correctness
    (hashFn : String → String) (db : List GlobalDocument)
    (t₁ t₂ : Int) (url ty text text₂ base : String)
    (title : Option String) (wc : Option Nat) :
    (db.find? (fun d => d.document_url == url) = none →
      (store_document hashFn db t₁ url ty text base title wc).1
          = db ++ [(store_document hashFn db t₁ url ty text base title wc).2]
        ∧ (store_document hashFn db t₁ url ty text base title wc).2.version = 1
        ∧ (store_document hashFn db t₁ url ty text base title wc).2.crawl_status = "fresh"
        ∧ (db.countP (fun d => d.document_url == url) = 0 →
            ((store_document hashFn db t₁ url ty text base title wc).1).countP
              (fun d => d.document_url == url) = 1))
    ∧ ((store_document hashFn
          (store_document hashFn db t₁ url ty text base title wc).1
          t₂ url ty text base title wc).2
        = { (store_document hashFn db t₁ url ty text base title wc).2 with
            last_crawled := t₂, crawl_status := "fresh" }
      ∧ (store_document hashFn
          (store_document hashFn db t₁ url ty text base title wc).1
          t₂ url ty text base title wc).2.version
        = (store_document hashFn db t₁ url ty text base title wc).2.version)
    ∧ (hashFn text ≠ hashFn text₂ →
      (store_document hashFn
          (store_document hashFn db t₁ url ty text base title wc).1
          t₂ url ty text₂ base title wc).2.version
        = (store_document hashFn db t₁ url ty text base title wc).2.version + 1
      ∧ (store_document hashFn
          (store_document hashFn db t₁ url ty text base title wc).1
          t₂ url ty text₂ base title wc).2.text_hash = hashFn text₂) := by
  refine ⟨fun hnone => ?_, ?_, fun hne => ?_⟩
  · refine ⟨?_, ?_, ?_, fun hc => ?_⟩
    · simp [store_document, hnone]
    · simp [store_document, hnone]
    · simp [store_document, hnone]
    · simp [store_document, hnone, List.countP_append, hc, List.countP_cons]
  · generalize hs : store_document hashFn db t₁ url ty text base title wc = s₁
    have hfind₂ : s₁.1.find? (fun d => d.document_url == url) = some s₁.2 :=
      hs ▸ store_document_find hashFn db t₁ url ty text base title wc
    have hh₁ : s₁.2.text_hash = hashFn text :=
      hs ▸ store_document_snd_text_hash hashFn db t₁ url ty text base title wc
    constructor
    · simp only [store_document]
      rw [hfind₂]
      simp [hh₁]
    · simp only [store_document]
      rw [hfind₂]
      simp [hh₁]
  · generalize hs : store_document hashFn db t₁ url ty text base title wc = s₁
    have hfind₂ : s₁.1.find? (fun d => d.document_url == url) = some s₁.2 :=
      hs ▸ store_document_find hashFn db t₁ url ty text base title wc
    have hh₁ : s₁.2.text_hash = hashFn text :=
      hs ▸ store_document_snd_text_hash hashFn db t₁ url ty text base title wc
    have hcond : s₁.2.text_hash ≠ hashFn text₂ := by rw [hh₁]; exact hne
    constructor
    · simp only [store_document]
      rw [hfind₂]
      simp [hcond]
    · simp only [store_document]
      rw [hfind₂]
      simp [hcond]

/-- Witness for C4: storing under the identity fingerprint, a fresh
store lands at version 1 and a changed-text store moves it to 2. -/
theorem store_document_cache_witness :
    (store_document (fun s => s) [] 1 "https://e.com/p" "privacy" "alpha"
        "https://e.com" none none).2.version = 1
    ∧ (store_document (fun s => s)
        (store_document (fun s => s) [] 1 "https://e.com/p" "privacy" "alpha"
          "https://e.com" none none).1
        2 "https://e.com/p" "privacy" "beta" "https://e.com" none none).2.version
      = (store_document (fun s => s) [] 1 "https://e.com/p" "privacy" "alpha"
          "https://e.com" none none).2.version + 1 :=
  ⟨((store_document_cache_correctness (fun s => s) [] 1 2 "https://e.com/p"
      "privacy" "alpha" "beta" "https://e.com" none none).1 rfl).2.1,
    ((store_document_cache_correctness (fun s => s) [] 1 2 "https://e.com/p"
      "privacy" "alpha" "beta" "https://e.com" none none).2.2 (by decide)).1⟩

/-! ## Theorems: analysis cache store (claim C5) -/

/-- A predicate finds nothing exactly when it counts nothing. -/
theorem find?_eq_none_iff_countP_zero {α : Type} (p : α → Bool) (l : List α) :
    l.find? p = none ↔ l.countP p = 0 := by
  rw [List.find?_eq_none, List.countP_eq_zero]

/-- Effect of one store_analysis call on the per-URL record count: a
record is added only when none exists for the stored URL; otherwise
every count is unchanged. -/
theorem store_analysis_urlCount (db : List GlobalAnalysisResult) (now : Int)
    (gid : Nat) (url h : String) (data : AnalysisData) (model : String)
    (force : Bool) (u : String) :
    urlCount (store_analysis db now gid url h data model force).1 u
      = if db.find? (fun r => r.document_url == url) = none ∧ u = url
        then urlCount db u + 1 else urlCount db u := by
  cases hfind : db.find? (fun r => r.document_url == url) with
  | none =>
    by_cases hu : u = url
    · subst hu
      simp [store_analysis, hfind, urlCount, List.countP_append, List.countP_cons]
    · simp [store_analysis, hfind, urlCount, List.countP_append, List.countP_cons,
        hu, Ne.symm hu]
  | some e =>
    have he : e.document_url = url := by simpa using List.find?_some hfind
    by_cases hcond : e.text_hash ≠ h ∨ force = true
    · simp only [store_analysis, hfind]
      rw [if_pos hcond]
      simp only [urlCount]
      rw [updateFirst_countP _ _ _ _ (fun a ha => ?_)]
      · simp [hfind]
      · have ha' : a.document_url = url := by simpa using ha
        simp [he, ha']
    · simp only [store_analysis, hfind]
      rw [if_neg hcond]
      simp only [urlCount]
      rw [updateFirst_countP _ _ _ _ (fun a ha => ?_)]
      · simp [hfind]
      · have ha' : a.document_url = url := by simpa using ha
        simp [he, ha']

/-- Sequences of store_analysis calls preserve the at-most-one-record
invariant, and every URL stored (or already present) ends with exactly
one record. -/
theorem apply_store_calls_exclusive (calls : List AnalysisStoreCall)
    (db : List GlobalAnalysisResult)
    (hinv : ∀ u, urlCount db u ≤ 1) :
    (∀ u, urlCount (apply_store_calls db calls) u ≤ 1)
    ∧ (∀ u, (urlCount db u = 1 ∨ ∃ c ∈ calls, c.document_url = u) →
        urlCount (apply_store_calls db calls) u = 1) := by
  induction calls generalizing db with
  | nil =>
    refine ⟨hinv, fun u hu => ?_⟩
    rcases hu with hu | ⟨c, hc, _⟩
    · simpa [apply_store_calls] using hu
    · simp at hc
  | cons c cs ih =>
    have hstep : ∀ u,
        urlCount (store_analysis db c.now c.global_document_id c.document_url
          c.text_hash c.analysis_data c.analysis_model c.force_replace).1 u
        = if db.find? (fun r => r.document_url == c.document_url) = none
              ∧ u = c.document_url
          then urlCount db u + 1 else urlCount db u :=
      fun u => store_analysis_urlCount db c.now c.global_document_id
        c.document_url c.text_hash c.analysis_data c.analysis_model
        c.force_replace u
    have hinv' : ∀ u,
        urlCount (store_analysis db c.now c.global_document_id c.document_url
          c.text_hash c.analysis_data c.analysis_model c.force_replace).1 u ≤ 1 := by
      intro u
      rw [hstep u]
      split
      · rename_i hif
        have h0 : urlCount db u = 0 := by
          rcases hif with ⟨hn, hu⟩
          subst hu
          exact (find?_eq_none_iff_countP_zero _ _).mp hn
        omega
      · exact hinv u
    have happly : apply_store_calls db (c :: cs)
        = apply_store_calls (store_analysis db c.now c.global_document_id
            c.document_url c.text_hash c.analysis_data c.analysis_model
            c.force_replace).1 cs := rfl
    obtain ⟨ih1, ih2⟩ := ih _ hinv'
    refine ⟨fun u => by rw [happly]; exact ih1 u, fun u hu => ?_⟩
    rw [happly]
    refine ih2 u ?_
    rcases hu with h1 | ⟨c', hc', hcu⟩
    · left
      rw [hstep u]
      split
      · rename_i hif
        exfalso
        rcases hif with ⟨hn, huu⟩
        subst huu
        have h0 : urlCount db c.document_url = 0 :=
          (find?_eq_none_iff_countP_zero _ _).mp hn
        omega
      · exact h1
    · rcases List.mem_cons.mp hc' with rfl | hmem
      · left
        rw [hstep u]
        split
        · rename_i hif
          rcases hif with ⟨hn, huu⟩
          subst huu
          have h0 : urlCount db c'.document_url = 0 :=
            (find?_eq_none_iff_countP_zero _ _).mp hn
          omega
        · rename_i hif
          rw [not_and_or] at hif
          rcases hif with hn | huu
          · have hpos : 0 < urlCount db u := by
              rcases Option.ne_none_iff_exists'.mp hn with ⟨e, he⟩
              have hmem := List.mem_of_find?_eq_some he
              have hpe := List.find?_some he
              refine List.countP_pos_iff.mpr ⟨e, hmem, ?_⟩
              subst hcu
              exact hpe
            have := hinv u
            omega
          · exact absurd hcu.symm huu
      · exact Or.inr ⟨c', hmem, hcu⟩

/-- C5: analysis-cache exclusivity.  A store call replaces the content
fields of the existing record exactly when the supplied hash differs
or force_replace is set, and otherwise only refreshes the update
timestamp; replacement is an in-place overwrite that never grows the
table, insertion happens only when no record exists; and after any
sequence of store calls from a table with at most one record per URL,
every stored URL has exactly one record. -/
theorem store_analysis_exclusivity
    (db : List GlobalAnalysisResult) (calls : List AnalysisStoreCall)
    (now : Int) (gid : Nat) (url h : String) (data : AnalysisData)
    (model : String) (force : Bool) :
    (∀ e, db.find? (fun r => r.document_url == url) = some e →
      (store_analysis db now gid url h data model force).2
        = if e.text_hash ≠ h ∨ force = true then
            { e with
              text_hash := h
              global_document_id := gid
              summary_100_words := data.summary_100_words
              summary_one_sentence := data.summary_one_sentence
              word_frequency := data.word_frequency
              measurements := data.measurements
              analysis_model := model
              updated_at := some now }
          else { e with updated_at := some now })
    ∧ (∀ e, db.find? (fun r => r.document_url == url) = some e →
        ((store_analysis db now gid url h data model force).1).length = db.length)
    ∧ (db.find? (fun r => r.document_url == url) = none →
        (store_analysis db now gid url h data model force).1
          = db ++ [(store_analysis db now gid url h data model force).2])
    ∧ ((∀ u, urlCount db u ≤ 1) →
        (∀ u, urlCount (apply_store_calls db calls) u ≤ 1)
        ∧ ∀ c ∈ calls, urlCount (apply_store_calls db calls) c.document_url = 1) := by
  refine ⟨fun e hfind => ?_, fun e hfind => ?_, fun hnone => ?_, fun hinv => ?_⟩
  · by_cases hcond : e.text_hash ≠ h ∨ force = true
    · simp only [store_analysis, hfind]
      rw [if_pos hcond, if_pos hcond]
    · simp only [store_analysis, hfind]
      rw [if_neg hcond, if_neg hcond]
  · simp only [store_analysis, hfind]
    split
    · simp [updateFirst_length]
    · simp [updateFirst_length]
  · simp [store_analysis, hnone]
  · obtain ⟨h1, h2⟩ := apply_store_calls_exclusive calls db hinv
    exact ⟨h1, fun c hc => h2 c.document_url (Or.inr ⟨c, hc, rfl⟩)⟩

/-- Witness for C5: one concrete store call on the empty table leaves
exactly one record for the stored URL. -/
theorem store_analysis_exclusivity_witness :
    urlCount
        (apply_store_calls []
          [⟨5, 1, "https://e.com/p", "h1", sampleAnalysis, "groq", false⟩])
        "https://e.com/p" = 1 :=
  ((store_analysis_exclusivity []
      [⟨5, 1, "https://e.com/p", "h1", sampleAnalysis, "groq", false⟩]
      0 0 "x" "y" sampleAnalysis "groq" false).2.2.2
    (fun u => by simp [urlCount])).2
    ⟨5, 1, "https://e.com/p", "h1", sampleAnalysis, "groq", false⟩
    (List.mem_singleton_self _)

/-! ## Theorems: link classification (claim C8) -/

/-- Membership in a stable descending insertion. -/
theorem mem_insertDesc (x a : String × String × Nat)
    (l : List (String × String × Nat)) :
    a ∈ insertDesc x l ↔ a = x ∨ a ∈ l := by
  induction l with
  | nil => simp [insertDesc]
  | cons y ys ih =>
    by_cases hxy : y.2.2 ≤ x.2.2
    · simp [insertDesc, hxy]
    · simp [insertDesc, hxy, ih]
      tauto

/-- Membership is preserved by the stable descending sort. -/
theorem mem_sortByScoreDesc (a : String × String × Nat)
    (l : List (String × String × Nat)) :
    a ∈ sortByScoreDesc l ↔ a ∈ l := by
  induction l with
  | nil => simp [sortByScoreDesc]
  | cons x xs ih => simp [sortByScoreDesc, mem_insertDesc, ih]

/-- Inserting into a descending list keeps it descending. -/
theorem insertDesc_pairwise (x : String × String × Nat)
    (l : List (String × String × Nat))
    (h : l.Pairwise (fun a b => b.2.2 ≤ a.2.2)) :
    (insertDesc x l).Pairwise (fun a b => b.2.2 ≤ a.2.2) := by
  induction l with
  | nil => simp [insertDesc]
  | cons y ys ih =>
    rcases List.pairwise_cons.mp h with ⟨hy, hys⟩
    by_cases hxy : y.2.2 ≤ x.2.2
    · rw [insertDesc, if_pos hxy]
      refine List.pairwise_cons.mpr ⟨?_, h⟩
      intro z hz
      rcases List.mem_cons.mp hz with rfl | hz
      · exact hxy
      · exact le_trans (hy z hz) hxy
    · rw [insertDesc, if_neg hxy]
      refine List.pairwise_cons.mpr ⟨?_, ih hys⟩
      intro z hz
      rcases (mem_insertDesc x z ys).mp hz with rfl | hz
      · exact le_of_lt (lt_of_not_le hxy)
      · exact hy z hz

/-- The stable sort produces a list descending in the score. -/
theorem sortByScoreDesc_sorted (l : List (String × String × Nat)) :
    (sortByScoreDesc l).Pairwise (fun a b => b.2.2 ≤ a.2.2) := by
  induction l with
  | nil => simp [sortByScoreDesc]
  | cons x xs ih => exact insertDesc_pairwise x _ ih

/-- Insertion interacts with filtering by one score value: the
inserted element lands in front of the equal-score elements and behind
no equal-score element. -/
theorem insertDesc_filter_score (x : String × String × Nat)
    (l : List (String × String × Nat)) (s : Nat) :
    (insertDesc x l).filter (fun e => e.2.2 == s)
      = if x.2.2 = s then x :: l.filter (fun e => e.2.2 == s)
        else l.filter (fun e => e.2.2 == s) := by
  induction l with
  | nil =>
    by_cases hx : x.2.2 = s <;> simp [insertDesc, List.filter_cons, hx]
  | cons y ys ih =>
    by_cases hxy : y.2.2 ≤ x.2.2
    · rw [insertDesc, if_pos hxy]
      by_cases hx : x.2.2 = s <;> simp [List.filter_cons, hx]
    · rw [insertDesc, if_neg hxy]
      have hlt : x.2.2 < y.2.2 := lt_of_not_le hxy
      by_cases hx : x.2.2 = s
      · have hy : ¬ y.2.2 = s := by omega
        simp [List.filter_cons, hx, hy, ih]
      · by_cases hy : y.2.2 = s <;> simp [List.filter_cons, hx, hy, ih]

/-- Stability of the sort: restricted to any fixed score, the sorted
list coincides with the input, i.e. equal scores keep discovery
order. -/
theorem sortByScoreDesc_stable (l : List (String × String × Nat)) (s : Nat) :
    (sortByScoreDesc l).filter (fun e => e.2.2 == s)
      = l.filter (fun e => e.2.2 == s) := by
  induction l with
  | nil => rfl
  | cons x xs ih =>
    rw [sortByScoreDesc, insertDesc_filter_score]
    by_cases hx : x.2.2 = s <;> simp [List.filter_cons, hx, ih]

/-- Deduplication returns a sublist. -/
theorem dedupByUrl_sublist (seen : List String)
    (l : List (String × String × Nat)) :
    (dedupByUrl seen l).Sublist l := by
  induction l generalizing seen with
  | nil => simp [dedupByUrl]
  | cons e es ih =>
    by_cases he : seen.contains e.1
    · rw [dedupByUrl, if_pos he]
      exact (ih seen).cons e
    · rw [dedupByUrl, if_neg he]
      exact (ih (e.1 :: seen)).cons₂ e

/-- Deduplication yields pairwise distinct URLs, none of them in the
already-seen set. -/
theorem dedupByUrl_nodup (seen : List String)
    (l : List (String × String × Nat)) :
    ((dedupByUrl seen l).map (fun e => e.1)).Nodup
    ∧ ∀ e ∈ dedupByUrl seen l, e.1 ∉ seen := by
  induction l generalizing seen with
  | nil => simp [dedupByUrl]
  | cons x xs ih =>
    by_cases hx : seen.contains x.1
    · rw [dedupByUrl, if_pos hx]
      exact ih seen
    · rw [dedupByUrl, if_neg hx]
      obtain ⟨ih1, ih2⟩ := ih (x.1 :: seen)
      have hxseen : x.1 ∉ seen := by simpa using hx
      refine ⟨?_, ?_⟩
      · refine List.nodup_cons.mpr ⟨?_, ih1⟩
        intro hmem
        rcases List.mem_map.mp hmem with ⟨e, he, heq⟩
        exact (ih2 e he) (heq ▸ List.mem_cons_self x.1 seen)
      · intro e he
        rcases List.mem_cons.mp he with rfl | he
        · exact hxseen
        · exact fun hs => (ih2 e he) (List.mem_cons_of_mem _ hs)

/-- Every survivor of deduplication is the first occurrence of its URL
in the input list. -/
theorem dedupByUrl_first (seen : List String)
    (l : List (String × String × Nat)) :
    ∀ e ∈ dedupByUrl seen l, l.find? (fun x => x.1 == e.1) = some e := by
  induction l generalizing seen with
  | nil => simp [dedupByUrl]
  | cons x xs ih =>
    intro e he
    by_cases hx : seen.contains x.1
    · rw [dedupByUrl, if_pos hx] at he
      have hne : e.1 ≠ x.1 := by
        intro heq
        exact ((dedupByUrl_nodup seen xs).2 e he) (by simpa [heq] using hx)
      rw [List.find?_cons_of_neg _ (by simpa using fun h => hne h.symm)]
      exact ih seen e he
    · rw [dedupByUrl, if_neg hx] at he
      rcases List.mem_cons.mp he with rfl | he
      · rw [List.find?_cons_of_pos _ (by simp)]
      · have hne : e.1 ≠ x.1 := by
          intro heq
          have := (dedupByUrl_nodup (x.1 :: seen) xs).2 e he
          exact this (heq ▸ List.mem_cons_self x.1 seen)
        rw [List.find?_cons_of_neg _ (by simpa using fun h => hne h.symm)]
        exact ih (x.1 :: seen) e he

/-- Every input URL survives deduplication (under some entry). -/
theorem dedupByUrl_complete (seen : List String)
    (l : List (String × String × Nat)) :
    ∀ x ∈ l, x.1 ∈ seen ∨ ∃ e ∈ dedupByUrl seen l, e.1 = x.1 := by
  induction l generalizing seen with
  | nil => simp
  | cons y ys ih =>
    intro x hx
    by_cases hy : seen.contains y.1
    · rw [dedupByUrl, if_pos hy]
      rcases List.mem_cons.mp hx with rfl | hx
      · exact Or.inl (by simpa using hy)
      · exact ih seen x hx
    · rw [dedupByUrl, if_neg hy]
      rcases List.mem_cons.mp hx with rfl | hx
      · exact Or.inr ⟨x, List.mem_cons_self _ _, rfl⟩
      · rcases ih (y.1 :: seen) x hx with hmem | ⟨e, he, heq⟩
        · rcases List.mem_cons.mp hmem with heq | hmem
          · exact Or.inr ⟨y, List.mem_cons_self _ _, heq.symm⟩
          · exact Or.inl hmem
        · exact Or.inr ⟨e, List.mem_cons_of_mem _ he, heq⟩

/-- C8: for every input link list and document type, the classifier
output is sorted by confidence score descending; equal scores keep
discovery order (the sort is stable on the accumulated matches and the
output is a sublist of the sorted matches); and duplicate URLs
collapse to exactly one entry, namely the first (hence
highest-scoring) occurrence in the sorted candidate list, with every
matched URL still represented. -/
theorem find_links_sorted_stable_dedup (links : List RawLink) (doc_type : String) :
    (find_links_for_type links doc_type).Pairwise (fun a b => b.2.2 ≤ a.2.2)
    ∧ (∀ s, (sortByScoreDesc (matchesFor links doc_type)).filter (fun e => e.2.2 == s)
          = (matchesFor links doc_type).filter (fun e => e.2.2 == s))
    ∧ (find_links_for_type links doc_type).Sublist
        (sortByScoreDesc (matchesFor links doc_type))
    ∧ ((find_links_for_type links doc_type).map (fun e => e.1)).Nodup
    ∧ (∀ e ∈ find_links_for_type links doc_type,
        (sortByScoreDesc (matchesFor links doc_type)).find? (fun x => x.1 == e.1)
          = some e)
    ∧ (∀ x ∈ matchesFor links doc_type,
        ∃ e ∈ find_links_for_type links doc_type, e.1 = x.1) := by
  refine ⟨?_, fun s => sortByScoreDesc_stable _ s, dedupByUrl_sublist _ _,
    (dedupByUrl_nodup _ _).1, dedupByUrl_first _ _, fun x hx => ?_⟩
  · exact List.Pairwise.sublist (dedupByUrl_sublist _ _) (sortByScoreDesc_sorted _)
  · have hx' : x ∈ sortByScoreDesc (matchesFor links doc_type) :=
      (mem_sortByScoreDesc _ _).mpr hx
    rcases dedupByUrl_complete [] _ x hx' with hmem | hfound
    · simp at hmem
    · exact hfound

/-! ## Theorems: URL normalization (claims C7, C10) -/

/-- Value of Char.ofNat at valid code points. -/
theorem char_toNat_ofNat {n : Nat} (h : n < 55296) : (Char.ofNat n).toNat = n := by
  unfold Char.ofNat
  have hv : n.isValidChar := Or.inl h
  simp only [hv, dif_pos]
  rfl

/-- Characters with equal code points are equal. -/
theorem char_eq_of_toNat_eq {a b : Char} (h : a.toNat = b.toNat) : a = b := by
  apply Char.ext
  apply UInt32.toNat.inj
  exact h

/-- Lowercasing an uppercase ASCII letter adds 32 to its code point. -/
theorem pyLower_toNat_upper {c : Char} (h : 65 ≤ c.toNat ∧ c.toNat ≤ 90) :
    (pyLower c).toNat = c.toNat + 32 := by
  rw [pyLower, if_pos h]
  exact char_toNat_ofNat (by omega)

/-- ASCII lowercasing is idempotent. -/
theorem pyLower_idem (c : Char) : pyLower (pyLower c) = pyLower c := by
  by_cases h : 65 ≤ c.toNat ∧ c.toNat ≤ 90
  · have hto := pyLower_toNat_upper h
    rw [pyLower, if_neg]
    omega
  · have hc : pyLower c = c := by rw [pyLower, if_neg h]
    rw [hc, hc]

/-- Lowercasing cannot produce a slash, question mark or hash, so it
preserves netloc characters. -/
theorem pyLower_nlcChar {c : Char} (h : nlcChar c = true) :
    nlcChar (pyLower c) = true := by
  by_cases hup : 65 ≤ c.toNat ∧ c.toNat ≤ 90
  · have hto := pyLower_toNat_upper hup
    simp only [nlcChar, Bool.not_eq_true', Bool.or_eq_false_iff, beq_eq_false_iff_ne]
    have h47 : ('/' : Char).toNat = 47 := rfl
    have h63 : ('?' : Char).toNat = 63 := rfl
    have h35 : ('#' : Char).toNat = 35 := rfl
    refine ⟨⟨fun he => ?_, fun he => ?_⟩, fun he => ?_⟩
    · rw [he, h47] at hto; omega
    · rw [he, h63] at hto; omega
    · rw [he, h35] at hto; omega
  · rw [pyLower, if_neg hup]
    exact h

/-- Lowercasing a list twice equals lowercasing once. -/
theorem lowerChars_idem (l : List Char) : lowerChars (lowerChars l) = lowerChars l := by
  unfold lowerChars
  rw [List.map_map]
  exact List.map_congr_left (fun a _ => pyLower_idem a)

/-- Lowercasing commutes with dropping a prefix. -/
theorem lowerChars_drop (l : List Char) (n : Nat) :
    lowerChars (l.drop n) = (lowerChars l).drop n :=
  List.map_drop pyLower l n

/-- The head of the remainder of dropWhile fails the predicate. -/
theorem dropWhile_head_false {p : Char → Bool} {l : List Char} {a : Char}
    {t : List Char} (h : l.dropWhile p = a :: t) : p a = false := by
  induction l with
  | nil => simp [List.dropWhile] at h
  | cons c cs ih =>
    rw [List.dropWhile_cons] at h
    by_cases hc : p c
    · rw [if_pos hc] at h
      exact ih h
    · rw [if_neg hc] at h
      cases h
      simpa using hc

/-- A list is a prefix of itself extended on the right. -/
theorem isPrefixOf_append_self (l t : List Char) : l.isPrefixOf (l ++ t) = true := by
  rw [List.isPrefixOf_iff_prefix]
  exact List.prefix_append l t

/-- Stripped paths are prefixes of the original path. -/
theorem rstripSlash_front (l : List Char) : rstripSlash l <+: l := by
  have h := List.reverse_prefix.mpr
    (List.dropWhile_suffix (l := l.reverse) (fun c => c == '/'))
  simpa [rstripSlash] using h

/-- Stripping trailing slashes twice equals stripping once. -/
theorem rstripSlash_idem (l : List Char) :
    rstripSlash (rstripSlash l) = rstripSlash l := by
  unfold rstripSlash
  rw [List.reverse_reverse, List.dropWhile_idempotent]

/-- Paths without semicolons have no params component. -/
theorem dropParams_of_no_semi {p : List Char} (h : ';' ∉ p) : dropParams p = p := by
  rw [dropParams, if_neg]
  simpa [List.contains] using h

/-- Netloc characters of any URL satisfy the netloc predicate. -/
theorem netlocOf_all_nlc (u : List Char) :
    ∀ c ∈ netlocOf u, nlcChar c = true :=
  fun _ hc => List.mem_takeWhile_imp hc

/-- The processed netloc still consists of netloc characters. -/
theorem processed_netloc_all_nlc (u : List Char) :
    ∀ c ∈ stripWww (lowerChars (netlocOf u)), nlcChar c = true := by
  intro c hc
  have hc' : c ∈ lowerChars (netlocOf u) := by
    by_cases hw : "www.".toList.isPrefixOf (lowerChars (netlocOf u))
    · rw [stripWww, if_pos hw] at hc
      exact List.mem_of_mem_drop hc
    · rwa [stripWww, if_neg hw] at hc
  rcases List.mem_map.mp hc' with ⟨d, hd, rfl⟩
  exact pyLower_nlcChar (netlocOf_all_nlc u d hd)

/-- Path characters of any URL satisfy the path predicate. -/
theorem rawPathOf_all_pathChar (u : List Char) :
    ∀ c ∈ rawPathOf u, pathChar c = true :=
  fun _ hc => List.mem_takeWhile_imp hc

/-- A URL without semicolons yields a path without semicolons. -/
theorem rawPathOf_no_semi (u : List Char) (hsemi : ';' ∉ u) :
    ';' ∉ rawPathOf u := by
  intro hmem
  have h1 : ';' ∈ afterNetlocOf u :=
    (List.takeWhile_sublist _).subset hmem
  have h2 : ';' ∈ schemeRest (completeScheme u) := by
    rw [afterNetlocOf] at h1
    exact (List.dropWhile_sublist _).subset h1
  have h3 : ';' ∈ completeScheme u := by
    rw [schemeRest] at h2
    split at h2
    · exact (List.drop_sublist _ _).subset h2
    · exact (List.drop_sublist _ _).subset h2
  rw [completeScheme] at h3
  split at h3
  · exact hsemi h3
  · rcases List.mem_append.mp h3 with h | h
    · simp at h
    · exact hsemi h

/-- In the absence of semicolons, the path produced by normalizeChars
is empty or starts with a slash. -/
theorem processed_path_head (u : List Char) (hsemi : ';' ∉ u) :
    rstripSlash (dropParams (rawPathOf u)) = []
      ∨ ∃ t, rstripSlash (dropParams (rawPathOf u)) = '/' :: t := by
  have hdp : dropParams (rawPathOf u) = rawPathOf u :=
    dropParams_of_no_semi (rawPathOf_no_semi u hsemi)
  rw [hdp]
  cases hd : (schemeRest (completeScheme u)).dropWhile nlcChar with
  | nil =>
    left
    have hraw : rawPathOf u = [] := by
      rw [rawPathOf, afterNetlocOf, hd]
      rfl
    rw [hraw]
    rfl
  | cons c t =>
    have hc : nlcChar c = false := dropWhile_head_false hd
    have hcases : c = '/' ∨ c = '?' ∨ c = '#' := by
      have h' : ¬c = '/' → ¬c = '?' → c = '#' := by simpa [nlcChar] using hc
      tauto
    rcases hcases with rfl | rfl | rfl
    · have hraw : rawPathOf u = '/' :: t.takeWhile pathChar := by
        rw [rawPathOf, afterNetlocOf, hd]
        rfl
      rcases rstripSlash_front (rawPathOf u) with ⟨r, hr⟩
      cases hP : rstripSlash (rawPathOf u) with
      | nil => exact Or.inl rfl
      | cons p ps =>
        right
        refine ⟨ps, ?_⟩
        rw [hP] at hr
        rw [hraw] at hr
        have hp : p = '/' := by
          have := hr
          simpa using congrArg (fun l => l.head?) this
        rw [hp]
    · left
      rw [rawPathOf, afterNetlocOf, hd]
      rfl
    · left
      rw [rawPathOf, afterNetlocOf, hd]
      rfl

/-- Core idempotence of normalization on character lists, for URLs
without semicolons whose lowercased host does not begin with a doubled
www. alias. -/
theorem normalizeChars_idem (u : List Char)
    (hsemi : ';' ∉ u)
    (hwww : "www.www.".toList.isPrefixOf (lowerChars (netlocOf u)) = false) :
    normalizeChars (normalizeChars u) = normalizeChars u := by
  set N := stripWww (lowerChars (netlocOf u)) with hN
  set P := rstripSlash (dropParams (rawPathOf u)) with hP
  have hv : normalizeChars u = "https://".toList ++ (N ++ P) := by
    simp only [normalizeChars]
    rw [hN, hP, List.append_assoc]
  have hNall : ∀ c ∈ N, nlcChar c = true := by
    rw [hN]
    exact processed_netloc_all_nlc u
  have hPpath : ∀ c ∈ P, pathChar c = true := by
    intro c hc
    rw [hP] at hc
    have hc1 : c ∈ dropParams (rawPathOf u) :=
      (rstripSlash_front _).sublist.subset hc
    rw [dropParams_of_no_semi (rawPathOf_no_semi u hsemi)] at hc1
    exact rawPathOf_all_pathChar u c hc1
  have hPhead : P = [] ∨ ∃ t, P = '/' :: t := by
    rw [hP]
    exact processed_path_head u hsemi
  have htw : (N ++ P).takeWhile nlcChar = N := by
    rw [List.takeWhile_append_of_pos hNall]
    rcases hPhead with hPe | ⟨t, hPt⟩
    · rw [hPe]
      simp
    · rw [hPt]
      simp [List.takeWhile_cons, nlcChar]
  have hdw : (N ++ P).dropWhile nlcChar = P := by
    rw [List.dropWhile_append_of_pos hNall]
    rcases hPhead with hPe | ⟨t, hPt⟩
    · rw [hPe]
      simp
    · rw [hPt]
      simp [List.dropWhile_cons, nlcChar]
  have hpre : "https://".toList.isPrefixOf (normalizeChars u) = true := by
    rw [hv]
    exact isPrefixOf_append_self _ _
  have hcs : completeScheme (normalizeChars u) = normalizeChars u := by
    rw [completeScheme, if_pos]
    rw [hpre]
    simp
  have h8 : ("https://".toList).length = 8 := rfl
  have hrest : schemeRest (completeScheme (normalizeChars u)) = N ++ P := by
    rw [hcs, schemeRest, if_pos hpre, hv, ← h8, List.drop_left]
  have hnet2 : netlocOf (normalizeChars u) = N := by
    rw [netlocOf, hrest, htw]
  have hafter2 : afterNetlocOf (normalizeChars u) = P := by
    rw [afterNetlocOf, hrest, hdw]
  have hraw2 : rawPathOf (normalizeChars u) = P := by
    rw [rawPathOf, hafter2]
    exact List.takeWhile_eq_self_iff.mpr hPpath
  have hlowN : lowerChars N = N := by
    rw [hN]
    by_cases hw : "www.".toList.isPrefixOf (lowerChars (netlocOf u)) = true
    · rw [stripWww, if_pos hw, lowerChars_drop, lowerChars_idem]
    · rw [stripWww, if_neg hw, lowerChars_idem]
  have hnowww : "www.".toList.isPrefixOf N = false := by
    rw [hN]
    by_cases hw : "www.".toList.isPrefixOf (lowerChars (netlocOf u)) = true
    · rw [stripWww, if_pos hw]
      by_contra hcon
      rw [Bool.not_eq_false, List.isPrefixOf_iff_prefix] at hcon
      rw [List.isPrefixOf_iff_prefix] at hw
      rcases hw with ⟨t, ht⟩
      have h4 : ("www.".toList).length = 4 := rfl
      have hdropt : (lowerChars (netlocOf u)).drop 4 = t := by
        rw [← ht, ← h4, List.drop_left]
      rw [hdropt] at hcon
      rcases hcon with ⟨t2, ht2⟩
      have : "www.www.".toList.isPrefixOf (lowerChars (netlocOf u)) = true := by
        rw [List.isPrefixOf_iff_prefix]
        refine ⟨t2, ?_⟩
        rw [← ht, ← ht2]
        rfl
      rw [this] at hwww
      exact Bool.true_eq_false.mp hwww
    · rw [stripWww, if_neg hw]
      exact Bool.not_eq_true _ ▸ (Bool.eq_false_iff.mpr (fun ht => hw ht))
  have hstrip2 : stripWww (lowerChars N) = N := by
    rw [hlowN, stripWww, if_neg (by rw [hnowww]; simp)]
  have hPsemi : ';' ∉ P := by
    intro hc
    rw [hP] at hc
    have hc1 : ';' ∈ dropParams (rawPathOf u) :=
      (rstripSlash_front _).sublist.subset hc
    rw [dropParams_of_no_semi (rawPathOf_no_semi u hsemi)] at hc1
    exact rawPathOf_no_semi u hsemi hc1
  have hdp2 : dropParams P = P := dropParams_of_no_semi hPsemi
  have hrs2 : rstripSlash P = P := by
    rw [hP, rstripSlash_idem]
  calc normalizeChars (normalizeChars u)
      = "https://".toList ++ stripWww (lowerChars (netlocOf (normalizeChars u)))
          ++ rstripSlash (dropParams (rawPathOf (normalizeChars u))) := rfl
    _ = "https://".toList ++ N ++ P := by rw [hnet2, hraw2, hdp2, hrs2, hstrip2]
    _ = normalizeChars u := by rw [hv, List.append_assoc]

/-- The normalized URL is never the empty string. -/
theorem normalizeChars_ne_nil (u : List Char) : normalizeChars u ≠ [] := by
  simp only [normalizeChars]
  intro h
  have := congrArg List.length h
  simp at this

/-- C7 (amended): normalize_crawl_url is idempotent for every
non-empty URL that contains no semicolon and no square bracket and
whose lowercased host part does not begin with a doubled www. alias
(a URL www.www.example.com loses one www. per application, and a
semicolon in the last path segment can expose a new params split on
the second parse; brackets make the Python parser raise instead of
returning). -/
theorem normalize_crawl_url_idempotent (url : String)
    (hne : url ≠ "")
    (hsemi : ';' ∉ url.toList)
    (_hlb : '[' ∉ url.toList) (_hrb : ']' ∉ url.toList)
    (hwww : "www.www.".toList.isPrefixOf (lowerChars (netlocOf url.toList)) = false) :
    ∃ v, normalize_crawl_url url = some v ∧ normalize_crawl_url v = some v := by
  refine ⟨⟨normalizeChars url.toList⟩, ?_, ?_⟩
  · rw [normalize_crawl_url, if_neg hne]
  · have hvne : (⟨normalizeChars url.toList⟩ : String) ≠ "" := by
      intro h
      exact normalizeChars_ne_nil url.toList (congrArg String.toList h)
    rw [normalize_crawl_url, if_neg hvne]
    have hl : (⟨normalizeChars url.toList⟩ : String).toList = normalizeChars url.toList := rfl
    rw [hl, normalizeChars_idem url.toList hsemi hwww]

/-- Witness for C7: a concrete URL with scheme, www alias, mixed case
and trailing slash normalizes to a fixed point. -/
theorem normalize_crawl_url_idempotent_witness :
    ∃ v, normalize_crawl_url "http://www.Example.com/a/" = some v
      ∧ normalize_crawl_url v = some v :=
  normalize_crawl_url_idempotent "http://www.Example.com/a/"
    (by decide) (by decide) (by decide) (by decide) (by decide)

/-- C7 counterexample: the claim as stated fails on the non-empty URL
www.www.example.com, whose normalization strips one www. per
application. -/
theorem normalize_crawl_url_not_idempotent :
    normalize_crawl_url "www.www.example.com" = some "https://www.example.com"
    ∧ normalize_crawl_url "https://www.example.com" = some "https://example.com"
    ∧ ("https://www.example.com" : String) ≠ "https://example.com" := by
  refine ⟨by decide, by decide, by decide⟩

/-- Netloc characters are in particular path characters. -/
theorem nlcChar_imp_pathChar {c : Char} (h : nlcChar c = true) :
    pathChar c = true := by
  simp only [nlcChar, Bool.not_eq_true', Bool.or_eq_false_iff] at h
  simp only [pathChar, Bool.not_eq_true', Bool.or_eq_false_iff]
  exact ⟨h.1.2, h.2⟩

/-- Matching a pattern of cut-safe characters is unaffected by cutting
the list at the first unsafe character. -/
theorem isPrefixOf_takeWhile (p : Char → Bool) (pat l : List Char)
    (hpat : ∀ c ∈ pat, p c = true) :
    pat.isPrefixOf (l.takeWhile p) = pat.isPrefixOf l := by
  induction pat generalizing l with
  | nil => simp [List.isPrefixOf]
  | cons a as ih =>
    cases l with
    | nil => simp
    | cons b bs =>
      rw [List.takeWhile_cons]
      by_cases hb : p b = true
      · rw [if_pos hb]
        simp only [List.isPrefixOf]
        rw [ih bs (fun c hc => hpat c (List.mem_cons_of_mem _ hc))]
      · rw [if_neg hb]
        have hab : (a == b) = false := by
          refine beq_eq_false_iff_ne.mpr (fun hcon => ?_)
          rw [← hcon] at hb
          exact hb (hpat a (List.mem_cons_self _ _))
        simp [List.isPrefixOf, hab]

/-- Cutting the query and fragment off does not change the netloc
prefix read by takeWhile. -/
theorem takeWhile_nlc_path (l : List Char) :
    (l.takeWhile pathChar).takeWhile nlcChar = l.takeWhile nlcChar := by
  induction l with
  | nil => rfl
  | cons c cs ih =>
    by_cases hn : nlcChar c = true
    · have hp : pathChar c = true := nlcChar_imp_pathChar hn
      rw [List.takeWhile_cons, if_pos hp, List.takeWhile_cons, if_pos hn,
        List.takeWhile_cons, if_pos hn, ih]
    · by_cases hp : pathChar c = true
      · rw [List.takeWhile_cons, if_pos hp, List.takeWhile_cons, if_neg hn,
          List.takeWhile_cons, if_neg hn]
      · rw [List.takeWhile_cons, if_neg hp, List.takeWhile_cons, if_neg hn]
        rfl

/-- Cutting the query and fragment off commutes with skipping the
netloc and reading the path. -/
theorem takeWhile_path_dropWhile_nlc (l : List Char) :
    ((l.takeWhile pathChar).dropWhile nlcChar).takeWhile pathChar
      = (l.dropWhile nlcChar).takeWhile pathChar := by
  induction l with
  | nil => rfl
  | cons c cs ih =>
    by_cases hn : nlcChar c = true
    · have hp : pathChar c = true := nlcChar_imp_pathChar hn
      rw [List.takeWhile_cons, if_pos hp, List.dropWhile_cons, if_pos hn,
        List.dropWhile_cons, if_pos hn, ih]
    · by_cases hp : pathChar c = true
      · rw [List.takeWhile_cons, if_pos hp, List.dropWhile_cons, if_neg hn,
          List.dropWhile_cons, if_neg hn, List.takeWhile_cons, if_pos hp,
          List.takeWhile_cons, if_pos hp, List.takeWhile_idem]
      · rw [List.takeWhile_cons, if_neg hp, List.dropWhile_cons, if_neg hn,
          List.takeWhile_cons, if_neg hp]
        rfl

/-- Scheme completion commutes with cutting query and fragment. -/
theorem completeScheme_takeWhile_path (u : List Char) :
    completeScheme (u.takeWhile pathChar) = (completeScheme u).takeWhile pathChar := by
  have hhttp : ("http://".toList).isPrefixOf (u.takeWhile pathChar)
      = "http://".toList.isPrefixOf u :=
    isPrefixOf_takeWhile pathChar _ u (by decide)
  have hhttps : ("https://".toList).isPrefixOf (u.takeWhile pathChar)
      = "https://".toList.isPrefixOf u :=
    isPrefixOf_takeWhile pathChar _ u (by decide)
  by_cases hcond : ("http://".toList.isPrefixOf u
      || "https://".toList.isPrefixOf u) = true
  · rw [completeScheme, if_pos (by rw [hhttp, hhttps]; exact hcond),
      completeScheme, if_pos hcond]
  · rw [completeScheme, if_neg (by rw [hhttp, hhttps]; exact hcond),
      completeScheme, if_neg hcond,
      List.takeWhile_append_of_pos (by decide)]

/-- The completed URL always carries an http:// or https:// prefix. -/
theorem completeScheme_has_scheme (u : List Char) :
    ("http://".toList.isPrefixOf (completeScheme u)
      || "https://".toList.isPrefixOf (completeScheme u)) = true := by
  rw [completeScheme]
  split
  · assumption
  · simp [isPrefixOf_append_self]

/-- Reading past the scheme commutes with cutting query and
fragment. -/
theorem schemeRest_completeScheme_takeWhile (u : List Char) :
    schemeRest (completeScheme (u.takeWhile pathChar))
      = (schemeRest (completeScheme u)).takeWhile pathChar := by
  rw [completeScheme_takeWhile_path]
  have hv := completeScheme_has_scheme u
  by_cases hs : "https://".toList.isPrefixOf (completeScheme u) = true
  · rcases List.isPrefixOf_iff_prefix.mp hs with ⟨t, ht⟩
    rw [schemeRest,
      if_pos (by rw [isPrefixOf_takeWhile pathChar _ _ (by decide)]; exact hs),
      schemeRest, if_pos hs, ← ht,
      List.takeWhile_append_of_pos (by decide)]
    have h8 : ("https://".toList).length = 8 := rfl
    rw [← h8, List.drop_left, List.drop_left]
  · have hh : "http://".toList.isPrefixOf (completeScheme u) = true := by
      rcases (Bool.or_eq_true _ _).mp hv with h | h
      · exact h
      · exact absurd h hs
    rcases List.isPrefixOf_iff_prefix.mp hh with ⟨t, ht⟩
    rw [schemeRest,
      if_neg (by rw [isPrefixOf_takeWhile pathChar _ _ (by decide)]; exact hs),
      schemeRest, if_neg hs, ← ht,
      List.takeWhile_append_of_pos (by decide)]
    have h7 : ("http://".toList).length = 7 := rfl
    rw [← h7, List.drop_left, List.drop_left]

/-- The netloc depends only on the URL up to its query or fragment. -/
theorem netlocOf_takeWhile_path (u : List Char) :
    netlocOf (u.takeWhile pathChar) = netlocOf u := by
  rw [netlocOf, netlocOf, schemeRest_completeScheme_takeWhile, takeWhile_nlc_path]

/-- The path depends only on the URL up to its query or fragment. -/
theorem rawPathOf_takeWhile_path (u : List Char) :
    rawPathOf (u.takeWhile pathChar) = rawPathOf u := by
  rw [rawPathOf, rawPathOf, afterNetlocOf, afterNetlocOf,
    schemeRest_completeScheme_takeWhile, takeWhile_path_dropWhile_nlc]

/-- Normalization depends only on the URL up to its query or
fragment. -/
theorem normalizeChars_takeWhile_path (u : List Char) :
    normalizeChars (u.takeWhile pathChar) = normalizeChars u := by
  simp only [normalizeChars]
  rw [netlocOf_takeWhile_path, rawPathOf_takeWhile_path]

/-- Cutting params keeps only characters of the original path. -/
theorem dropParams_subset (p : List Char) : ∀ c ∈ dropParams p, c ∈ p := by
  intro c hc
  rw [dropParams] at hc
  split at hc
  · split at hc
    · rcases List.mem_append.mp hc with hc | hc
      · have hc' := List.mem_reverse.mp hc
        have hc'' := (List.dropWhile_sublist _).subset hc'
        exact List.mem_reverse.mp hc''
      · have hc' := (List.takeWhile_sublist _).subset hc
        have hc'' := List.mem_reverse.mp hc'
        have hc''' := (List.takeWhile_sublist _).subset hc''
        exact List.mem_reverse.mp hc'''
    · exact (List.takeWhile_sublist _).subset hc
  · exact hc

/-- The normalized URL consists of scheme, host and path characters
only: no question mark and no hash survive. -/
theorem normalizeChars_all_pathChar (u : List Char) :
    ∀ c ∈ normalizeChars u, pathChar c = true := by
  intro c hc
  simp only [normalizeChars] at hc
  rcases List.mem_append.mp hc with hc | hc
  · rcases List.mem_append.mp hc with hc | hc
    · exact (by decide : ∀ c ∈ "https://".toList, pathChar c = true) c hc
    · exact nlcChar_imp_pathChar (processed_netloc_all_nlc u c hc)
  · have hc1 : c ∈ dropParams (rawPathOf u) :=
      (rstripSlash_front _).sublist.subset hc
    have hc2 : c ∈ rawPathOf u := dropParams_subset _ c hc1
    exact rawPathOf_all_pathChar u c hc2

/-- C10: normalize_crawl_url discards query string and fragment.  Two
non-empty URLs that agree up to their first question mark or hash
normalize identically, and the normalized URL contains neither a
question mark nor a hash. -/
theorem normalize_crawl_url_drops_query_and_fragment (u₁ u₂ : String)
    (h₁ : u₁ ≠ "") (h₂ : u₂ ≠ "")
    (hqf : stripQueryFragment u₁.toList = stripQueryFragment u₂.toList) :
    normalize_crawl_url u₁ = normalize_crawl_url u₂
    ∧ (∀ v, normalize_crawl_url u₁ = some v →
        '?' ∉ v.toList ∧ '#' ∉ v.toList) := by
  constructor
  · rw [normalize_crawl_url, if_neg h₁, normalize_crawl_url, if_neg h₂]
    have heq : normalizeChars u₁.toList = normalizeChars u₂.toList := by
      rw [← normalizeChars_takeWhile_path u₁.toList,
        ← normalizeChars_takeWhile_path u₂.toList]
      rw [stripQueryFragment] at hqf
      rw [stripQueryFragment] at hqf
      rw [hqf]
    rw [heq]
  · intro v hv
    rw [normalize_crawl_url, if_neg h₁] at hv
    have hvl : v.toList = normalizeChars u₁.toList := by
      have := Option.some.inj hv
      rw [← this]
      rfl
    constructor
    · intro hc
      rw [hvl] at hc
      have := normalizeChars_all_pathChar u₁.toList _ hc
      simp [pathChar] at this
    · intro hc
      rw [hvl] at hc
      have := normalizeChars_all_pathChar u₁.toList _ hc
      simp [pathChar] at this

/-- Witness for C10: the same base URL with a query and with a
fragment, normalizing to the same canonical form. -/
theorem normalize_crawl_url_drops_qf_witness :
    normalize_crawl_url "https://example.com/a?q=1"
      = normalize_crawl_url "https://example.com/a#frag"
    ∧ stripQueryFragment ("https://example.com/a?q=1").toList
      = stripQueryFragment ("https://example.com/a#frag").toList :=
  ⟨(normalize_crawl_url_drops_query_and_fragment
      "https://example.com/a?q=1" "https://example.com/a#frag"
      (by decide) (by decide) (by decide)).1,
    by decide⟩
